import Mathlib

/-!
Verification of the directed-graph component of the `data_structures`
repository (`src/simple_graph.py`).

The Python class `Graph` stores its state in the attribute `_nodes`, a dict
mapping each node to the (insertion-ordered, mutable) list of its direct
successors.  We embed that state as an insertion-ordered association list,
mirroring the semantics of a Python dict: lookup returns the first (and,
through the public operations, only) entry for a key, `setdefault` appends a
fresh entry at the end, updating a value keeps the entry's position, and
`del` removes the entry.

Every public operation is embedded as a function from the pre-state to a
pair of (result, post-state), where the result is `Except Err _` so that a
raised `ValueError` / `KeyError` is visible, and the post-state records what
`self._nodes` holds after the call returns or raises.  The two traversal
methods recurse; the embedding uses an explicit fuel parameter and we prove
below that the chosen fuel is always sufficient, so the fuel-exhaustion
branch is unreachable.
-/

set_option maxRecDepth 10000

namespace PG

/-- Errors raised by `simple_graph.py`: `ValueError(msg)` or a bare `KeyError`. -/
inductive Err where
  | valueError (msg : String) : Err
  | keyError : Err
deriving DecidableEq, Repr

/-- State of a `Graph` object: the dict `self._nodes`, embedded as an
insertion-ordered association list from a node to its successor list. -/
structure Graph (α : Type) where
  _nodes : List (α × List α)
deriving DecidableEq, Repr

variable {α : Type} [DecidableEq α]

/-- Python membership test `n in self._nodes` (equivalently `in self._nodes.keys()`). -/
def hasKey (g : Graph α) (n : α) : Bool :=
  g._nodes.any (fun p => p.1 == n)

/-- Python indexing `self._nodes[n]`; `none` models the `KeyError` a dict
raises for a missing key. -/
def lookup (g : Graph α) (n : α) : Option (List α) :=
  (g._nodes.find? (fun p => p.1 == n)).map Prod.snd

/-- Python `Graph.__init__`: `self._nodes = {}`. -/
def emptyGraph : Graph α := ⟨[]⟩

/-- Python `self._nodes.setdefault(n, [])`: no change when `n` is a key,
otherwise a fresh entry `(n, [])` is appended at the end of the dict. -/
def setdefault (g : Graph α) (n : α) : Graph α :=
  if hasKey g n then g else ⟨g._nodes ++ [(n, [])]⟩

/-- Replacing the value stored at key `k` (in place, position preserved),
as Python's `self._nodes[k].append(...)` / `.remove(...)` do. -/
def updateKey (l : List (α × List α)) (k : α) (v : List α) : List (α × List α) :=
  l.map (fun p => if p.1 == k then (k, v) else p)

/-- Python `Graph.nodes`: `return list(self._nodes)`. -/
def nodes (g : Graph α) : List α × Graph α :=
  (g._nodes.map Prod.fst, g)

/-- Python `Graph.edges`: one `(start, end)` pair per successor entry, in
iteration order. -/
def edges (g : Graph α) : List (α × α) × Graph α :=
  (g._nodes.flatMap (fun p => p.2.map (fun e => (p.1, e))), g)

/-- Python `Graph.add_node`. -/
def add_node (g : Graph α) (node : α) : Except Err Unit × Graph α :=
  if hasKey g node then
    (.error (.valueError "Node already present in Graph."), g)
  else
    (.ok (), ⟨g._nodes ++ [(node, [])]⟩)

/-- Python `Graph.add_edge`: two `setdefault`s run first, then the
duplicate check, then the append.  Note that when the duplicate check
fails the two `setdefault`s have already mutated the dict. -/
def add_edge (g : Graph α) (n1 n2 : α) : Except Err Unit × Graph α :=
  let g2 := setdefault (setdefault g n1) n2
  match lookup g2 n1 with
  | none => (.error .keyError, g2)
  | some l =>
    if n2 ∈ l then
      (.error (.valueError "This edge already exists."), g2)
    else
      (.ok (), ⟨updateKey g2._nodes n1 (l ++ [n2])⟩)

/-- Python `Graph.del_node`. -/
def del_node (g : Graph α) (node : α) : Except Err Unit × Graph α :=
  if hasKey g node then
    (.ok (), ⟨g._nodes.filter (fun p => !(p.1 == node))⟩)
  else
    (.error (.valueError "This node is not in the graph"), g)

/-- Python `Graph.del_edge`: `self._nodes[n1].remove(n2)` removes the first
occurrence of `n2`. -/
def del_edge (g : Graph α) (n1 n2 : α) : Except Err Unit × Graph α :=
  match lookup g n1 with
  | some l =>
    if n2 ∈ l then
      (.ok (), ⟨updateKey g._nodes n1 (l.erase n2)⟩)
    else
      (.error (.valueError "This edge does not exist."), g)
  | none => (.error (.valueError "This edge does not exist."), g)

/-- Python `Graph.has_node`. -/
def has_node (g : Graph α) (node : α) : Bool × Graph α :=
  (hasKey g node, g)

/-- Python `Graph.neighbors`. -/
def neighbors (g : Graph α) (node : α) : Except Err (List α) × Graph α :=
  ((match lookup g node with
    | some l => .ok l
    | none => .error (.valueError "Node is not in graph.")), g)

/-- Python `Graph.adjacent`. -/
def adjacent (g : Graph α) (n1 n2 : α) : Except Err Bool × Graph α :=
  ((if !(hasKey g n1) || !(hasKey g n2) then .error .keyError
    else
      match lookup g n1 with
      | none => .error .keyError
      | some l => if n2 ∈ l then .ok true else .ok false), g)

/-- Sequential visiting loop of `depth_first_traversal`: given the visitor
for a single node, run it over a successor list left to right, threading
the shared `prev` list and concatenating the produced path fragments
(`for node in nodes: path_list.extend(self.depth_first_traversal(node, prev))`). -/
def dfsListGo (rec : α → List α → Option (Except Err (List α × List α))) :
    List α → List α → Option (Except Err (List α × List α))
  | [], prev => some (.ok ([], prev))
  | x :: xs, prev =>
    match rec x prev with
    | none => none
    | some (.error e) => some (.error e)
    | some (.ok (p, prev1)) =>
      match dfsListGo rec xs prev1 with
      | none => none
      | some (.error e) => some (.error e)
      | some (.ok (q, prev2)) => some (.ok (p ++ q, prev2))

/-- Python `Graph.depth_first_traversal(start, prev)`, with the mutation of
the shared list `prev` made explicit: the result is the produced
`path_list` together with the final contents of `prev`.  The outer `Option`
is the fuel-exhaustion case, proved unreachable for the fuel used by
`depth_first_traversal` below. -/
def dfsNodeF : Nat → Graph α → α → List α → Option (Except Err (List α × List α))
  | 0, _, _, _ => none
  | fuel + 1, g, start, prev =>
    if hasKey g start then
      if start ∈ prev then some (.ok ([], prev))
      else
        match dfsListGo (fun x pr => dfsNodeF fuel g x pr)
            ((lookup g start).getD []) (prev ++ [start]) with
        | none => none
        | some (.error e) => some (.error e)
        | some (.ok (p, prev2)) => some (.ok (start :: p, prev2))
    else some (.error .keyError)

/-- Fuel sufficient for any depth-first traversal of `g` (proved below):
the recursion nesting depth is bounded by the number of keys plus one. -/
def dfsFuel (g : Graph α) : Nat := g._nodes.length + 1

/-- Python `Graph.depth_first_traversal(start)` as called externally
(`prev = None`, so the visited list starts empty). -/
def depth_first_traversal (g : Graph α) (start : α) : Except Err (List α) × Graph α :=
  ((match dfsNodeF (dfsFuel g) g start [] with
    | some (.ok (p, _)) => .ok p
    | some (.error e) => .error e
    | none => .error .keyError), g)

/-- Inner double loop of `breadth_first_traversal`: collect, for each item
of the current layer in order, those of its successors that are not yet in
`path_list`.  Indexing a missing key raises `KeyError`. -/
def bfsChildren (g : Graph α) : List α → List α → Except Err (List α)
  | [], _ => .ok []
  | item :: rest, path =>
    match lookup g item with
    | none => .error .keyError
    | some succs =>
      match bfsChildren g rest path with
      | .error e => .error e
      | .ok cs => .ok (succs.filter (fun e => decide (e ∉ path)) ++ cs)

/-- Recursive layer expansion of `breadth_first_traversal`: extend
`path_list` by the children of the current layer and recurse while new
nodes appear.  Fuel-exhaustion (`none`) is proved unreachable below. -/
def bfsF : Nat → Graph α → List α → List α → Option (Except Err (List α))
  | 0, _, _, _ => none
  | fuel + 1, g, parent, path =>
    match bfsChildren g parent path with
    | .error e => some (.error e)
    | .ok children =>
      if children = [] then some (.ok (path ++ children))
      else bfsF fuel g children (path ++ children)

/-- All nodes mentioned anywhere in the graph (keys and successors),
deduplicated; bounds the nodes a breadth-first traversal can emit. -/
def mentioned (g : Graph α) : List α :=
  (g._nodes.flatMap (fun p => p.1 :: p.2)).dedup

/-- Fuel sufficient for any breadth-first traversal of `g` (proved below). -/
def bfsFuel (g : Graph α) : Nat := (mentioned g).length + 1

/-- Python `Graph.breadth_first_traversal(start)` as called externally with
a single (non-list) start node: `start` is emitted first and becomes the
initial layer. -/
def breadth_first_traversal (g : Graph α) (start : α) : Except Err (List α) × Graph α :=
  ((bfsF (bfsFuel g) g [start] [start]).getD (.error .keyError), g)

/-- Number of distinct mentioned nodes of `g` not yet in `path_list`; the
measure that bounds the breadth-first layer recursion. -/
def unvisitedM (g : Graph α) (path : List α) : Nat :=
  ((mentioned g).filter (fun x => decide (x ∉ path))).length

/-- Layer decomposition invariant of the breadth-first output: each layer
contains only nodes that had not been emitted before that layer began. -/
def FreshLayers : List α → List (List α) → Prop
  | _, [] => True
  | path, l :: ls => (∀ c ∈ l, c ∉ path) ∧ FreshLayers (path ++ l) ls

/-! ### Concrete graphs used by the claims -/

/-- Branching graph of the spec's §8 example: `add_edge(1,2)`,
`add_edge(1,3)`, `add_edge(2,4)` starting from an empty graph. -/
def gBranch : Graph ℕ :=
  (add_edge (add_edge (add_edge emptyGraph 1 2).2 1 3).2 2 4).2

/-- Diamond graph: edges 1→2, 1→3, 2→4, 3→4, built by `add_edge` calls. -/
def gDiamond : Graph ℕ :=
  (add_edge (add_edge (add_edge (add_edge emptyGraph 1 2).2 1 3).2 2 4).2 3 4).2

/-- Three-cycle 1→2, 2→3, 3→1, built by `add_edge` calls. -/
def gCycle : Graph ℕ :=
  (add_edge (add_edge (add_edge emptyGraph 1 2).2 2 3).2 3 1).2

/-- Graph with a dangling successor reference: `add_edge(1,2)` then
`del_node(2)` leaves `_nodes = {1: [2]}` with node 2 absent. -/
def gDangling : Graph ℕ :=
  (del_node (add_edge emptyGraph 1 2).2 2).2

/-- Keys of the graph, in storage order. -/
def keyList (g : Graph α) : List α := g._nodes.map Prod.fst

/-- Number of distinct keys of `g` not yet in the visited list `prev`;
the measure that bounds the depth-first recursion depth. -/
def unvisited (g : Graph α) (prev : List α) : Nat :=
  ((keyList g).dedup.filter (fun x => decide (x ∉ prev))).length

/-- Referential integrity: every node appearing in some node's successor
sequence has its own entry in the mapping. -/
def RefIntegrity (g : Graph α) : Prop :=
  ∀ p ∈ g._nodes, ∀ x ∈ p.2, hasKey g x = true

instance (g : Graph α) : Decidable (RefIntegrity g) :=
  inferInstanceAs (Decidable (∀ p ∈ g._nodes, ∀ x ∈ p.2, hasKey g x = true))


instance {ε β : Type} [DecidableEq ε] [DecidableEq β] : DecidableEq (Except ε β) := fun a b =>
  match a, b with
  | .ok x, .ok y =>
    match decEq x y with
    | isTrue h => isTrue (h ▸ rfl)
    | isFalse h => isFalse (fun c => h (Except.ok.inj c))
  | .error x, .error y =>
    match decEq x y with
    | isTrue h => isTrue (h ▸ rfl)
    | isFalse h => isFalse (fun c => h (Except.error.inj c))
  | .ok _, .error _ => isFalse (fun c => Except.noConfusion c)
  | .error _, .ok _ => isFalse (fun c => Except.noConfusion c)

/-! ### Basic lemmas about the dict embedding -/

theorem hasKey_append (l₁ l₂ : List (α × List α)) (x : α) :
    hasKey (⟨l₁ ++ l₂⟩ : Graph α) x = (hasKey ⟨l₁⟩ x || hasKey ⟨l₂⟩ x) := by
  simp [hasKey, List.any_append]

theorem lookup_none_iff (g : Graph α) (n : α) :
    lookup g n = none ↔ hasKey g n = false := by
  simp [lookup, hasKey, List.find?_eq_none, List.any_eq_true]

theorem lookup_of_hasKey (g : Graph α) (n : α) (h : hasKey g n = true) :
    ∃ l, lookup g n = some l := by
  rcases ho : lookup g n with _ | l
  · rw [lookup_none_iff] at ho; rw [h] at ho; cases ho
  · exact ⟨l, rfl⟩

theorem hasKey_of_lookup (g : Graph α) (n : α) (l : List α)
    (h : lookup g n = some l) : hasKey g n = true := by
  by_contra hc
  rw [(lookup_none_iff g n).2 (Bool.eq_false_iff.2 hc)] at h
  cases h

theorem lookup_some_entry (g : Graph α) (n : α) (l : List α)
    (h : lookup g n = some l) : ∃ p ∈ g._nodes, p.1 = n ∧ p.2 = l := by
  simp only [lookup, Option.map_eq_some'] at h
  obtain ⟨p, hp, hsnd⟩ := h
  exact ⟨p, List.mem_of_find?_eq_some hp,
    by simpa using List.find?_some hp, hsnd⟩

theorem lookup_append_left (l₁ l₂ : List (α × List α)) (n : α)
    (h : hasKey ⟨l₁⟩ n = true) :
    lookup (⟨l₁ ++ l₂⟩ : Graph α) n = lookup ⟨l₁⟩ n := by
  obtain ⟨l, hl⟩ := lookup_of_hasKey ⟨l₁⟩ n h
  simp only [lookup, List.find?_append] at hl ⊢
  rcases hf : List.find? (fun p => p.1 == n) l₁ with _ | p
  · rw [hf] at hl; cases hl
  · rw [hf]; exact rfl

theorem lookup_append_right (l₁ l₂ : List (α × List α)) (n : α)
    (h : hasKey ⟨l₁⟩ n = false) :
    lookup (⟨l₁ ++ l₂⟩ : Graph α) n = lookup ⟨l₂⟩ n := by
  have hn : lookup (⟨l₁⟩ : Graph α) n = none := (lookup_none_iff _ n).2 h
  simp only [lookup, List.find?_append] at hn ⊢
  rcases hf : List.find? (fun p => p.1 == n) l₁ with _ | p
  · rw [hf]; exact rfl
  · rw [hf] at hn; cases hn

theorem lookup_cons (p : α × List α) (t : List (α × List α)) (x : α) :
    lookup (⟨p :: t⟩ : Graph α) x =
      if p.1 = x then some p.2 else lookup ⟨t⟩ x := by
  by_cases hp : p.1 = x
  · rw [if_pos hp]
    simp [lookup, List.find?_cons_of_pos, hp]
  · rw [if_neg hp]
    simp only [lookup]
    rw [List.find?_cons_of_neg _ (by simpa using hp)]

theorem hasKey_cons (p : α × List α) (t : List (α × List α)) (x : α) :
    hasKey (⟨p :: t⟩ : Graph α) x = ((p.1 == x) || hasKey ⟨t⟩ x) := by
  simp [hasKey]

theorem hasKey_updateKey (l : List (α × List α)) (k : α) (v : List α) (x : α) :
    hasKey (⟨updateKey l k v⟩ : Graph α) x = hasKey ⟨l⟩ x := by
  simp only [hasKey, updateKey, List.any_map]
  congr 1
  funext p
  show ((if p.1 == k then (k, v) else p).1 == x) = (p.1 == x)
  by_cases h : p.1 = k <;> simp [h]

theorem updateKey_cons (p : α × List α) (t : List (α × List α)) (k : α) (v : List α) :
    updateKey (p :: t) k v = (if p.1 == k then (k, v) else p) :: updateKey t k v := rfl

theorem lookup_updateKey_self (l : List (α × List α)) (k : α) (v : List α)
    (h : hasKey ⟨l⟩ k = true) :
    lookup (⟨updateKey l k v⟩ : Graph α) k = some v := by
  induction l with
  | nil => simp [hasKey] at h
  | cons p t ih =>
    rw [updateKey_cons, lookup_cons]
    by_cases hk : p.1 = k
    · have hq : (if p.1 == k then (k, v) else p) = (k, v) := by simp [hk]
      rw [hq, if_pos rfl]
    · have hq : (if p.1 == k then (k, v) else p) = p := by simp [hk]
      rw [hq, if_neg hk]
      apply ih
      simp only [hasKey, List.any_cons, Bool.or_eq_true] at h
      rcases h with h1 | h1
      · exact absurd (by simpa using h1) hk
      · exact h1

theorem lookup_updateKey_ne (l : List (α × List α)) (k : α) (v : List α)
    (x : α) (h : x ≠ k) :
    lookup (⟨updateKey l k v⟩ : Graph α) x = lookup ⟨l⟩ x := by
  induction l with
  | nil => rfl
  | cons p t ih =>
    rw [updateKey_cons, lookup_cons, lookup_cons]
    by_cases hk : p.1 = k
    · have hq : (if p.1 == k then (k, v) else p) = (k, v) := by simp [hk]
      rw [hq, if_neg (show ¬((k, v).1 = x) from fun c => h c.symm),
        if_neg (show ¬(p.1 = x) from fun c => h (by rw [← c, hk]))]
      exact ih
    · have hq : (if p.1 == k then (k, v) else p) = p := by simp [hk]
      rw [hq]
      by_cases hp : p.1 = x
      · rw [if_pos hp, if_pos hp]
      · rw [if_neg hp, if_neg hp]
        exact ih

theorem setdefault_of_hasKey (g : Graph α) (n : α) (h : hasKey g n = true) :
    setdefault g n = g := by
  rw [setdefault, if_pos h]

theorem setdefault_of_absent (g : Graph α) (n : α) (h : hasKey g n = false) :
    setdefault g n = ⟨g._nodes ++ [(n, [])]⟩ := by
  rw [setdefault, if_neg (by simp [h])]

theorem hasKey_setdefault_iff (g : Graph α) (n x : α) :
    hasKey (setdefault g n) x = true ↔ (hasKey g x = true ∨ x = n) := by
  by_cases h : hasKey g n = true
  · rw [setdefault_of_hasKey g n h]
    constructor
    · exact fun hx => Or.inl hx
    · rintro (hx | rfl)
      · exact hx
      · exact h
  · rw [setdefault_of_absent g n (Bool.eq_false_iff.2 h), hasKey_append]
    constructor
    · intro hx
      rcases Bool.or_eq_true_iff.1 hx with h1 | h1
      · exact Or.inl h1
      · right
        have hb : (n == x) = true := by simpa [hasKey] using h1
        exact (eq_of_beq hb).symm
    · rintro (hx | rfl)
      · exact Bool.or_eq_true_iff.2 (Or.inl hx)
      · refine Bool.or_eq_true_iff.2 (Or.inr ?_)
        simp [hasKey]

theorem lookup_setdefault_self (g : Graph α) (n : α) :
    lookup (setdefault g n) n = some ((lookup g n).getD []) := by
  by_cases h : hasKey g n = true
  · obtain ⟨l, hl⟩ := lookup_of_hasKey g n h
    rw [setdefault_of_hasKey g n h, hl]
    rfl
  · have hf : hasKey g n = false := Bool.eq_false_iff.2 h
    have hn : lookup g n = none := (lookup_none_iff g n).2 hf
    rw [setdefault_of_absent g n hf, lookup_append_right _ _ _ hf, hn, lookup_cons,
      if_pos (show (n, ([] : List α)).1 = n from rfl)]
    exact rfl

theorem lookup_setdefault_of_hasKey (g : Graph α) (n x : α)
    (h : hasKey g x = true) :
    lookup (setdefault g n) x = lookup g x := by
  by_cases hn : hasKey g n = true
  · rw [setdefault_of_hasKey g n hn]
  · rw [setdefault_of_absent g n (Bool.eq_false_iff.2 hn)]
    exact lookup_append_left _ _ _ h

theorem lookup_setdefault_of_ne (g : Graph α) (n x : α) (h : x ≠ n) :
    lookup (setdefault g n) x = lookup g x := by
  by_cases hn : hasKey g n = true
  · rw [setdefault_of_hasKey g n hn]
  · by_cases hx : hasKey g x = true
    · rw [setdefault_of_absent g n (Bool.eq_false_iff.2 hn)]
      exact lookup_append_left _ _ _ hx
    · have hfx : hasKey g x = false := Bool.eq_false_iff.2 hx
      rw [setdefault_of_absent g n (Bool.eq_false_iff.2 hn),
        lookup_append_right _ _ _ hfx, (lookup_none_iff g x).2 hfx, lookup_cons,
        if_neg (show ¬((n, ([] : List α)).1 = x) from fun c => h c.symm)]
      rfl

/-! ### Characterization of add_edge -/

theorem lookup_setdefault2_left (g : Graph α) (a b : α) :
    lookup (setdefault (setdefault g a) b) a = some ((lookup g a).getD []) := by
  have h1 : lookup (setdefault g a) a = some ((lookup g a).getD []) :=
    lookup_setdefault_self g a
  rw [lookup_setdefault_of_hasKey _ b a (hasKey_of_lookup _ _ _ h1), h1]

theorem add_edge_err (g : Graph α) (a b : α) (hm : b ∈ (lookup g a).getD []) :
    add_edge g a b =
      (.error (.valueError "This edge already exists."),
        setdefault (setdefault g a) b) := by
  have h2 := lookup_setdefault2_left g a b
  simp [add_edge, h2, hm]

theorem add_edge_ok_eq (g : Graph α) (a b : α) (hm : b ∉ (lookup g a).getD []) :
    add_edge g a b =
      (.ok (),
        ⟨updateKey (setdefault (setdefault g a) b)._nodes a
          ((lookup g a).getD [] ++ [b])⟩) := by
  have h2 := lookup_setdefault2_left g a b
  simp [add_edge, h2, hm]

theorem add_edge_post_lookup_self (g : Graph α) (a b : α)
    (hm : b ∉ (lookup g a).getD []) :
    lookup (add_edge g a b).2 a = some ((lookup g a).getD [] ++ [b]) := by
  rw [add_edge_ok_eq g a b hm]
  exact lookup_updateKey_self _ _ _
    (hasKey_of_lookup _ _ _ (lookup_setdefault2_left g a b))

theorem add_edge_post_lookup_ne (g : Graph α) (a b x : α) (hx : x ≠ a)
    (hm : b ∉ (lookup g a).getD []) :
    lookup (add_edge g a b).2 x = lookup (setdefault (setdefault g a) b) x := by
  rw [add_edge_ok_eq g a b hm]
  exact lookup_updateKey_ne _ _ _ _ hx

theorem hasKey_add_edge_post (g : Graph α) (a b x : α)
    (hm : b ∉ (lookup g a).getD []) :
    hasKey (add_edge g a b).2 x = true ↔
      (hasKey g x = true ∨ x = a ∨ x = b) := by
  rw [add_edge_ok_eq g a b hm]
  rw [show hasKey
      (⟨updateKey (setdefault (setdefault g a) b)._nodes a
        ((lookup g a).getD [] ++ [b])⟩ : Graph α) x =
      hasKey (setdefault (setdefault g a) b) x from hasKey_updateKey _ _ _ x]
  rw [hasKey_setdefault_iff, hasKey_setdefault_iff]
  tauto

/-! ### Claim theorems -/

/-- Claim C5: on the branching graph built by `add_edge(1,2)`,
`add_edge(1,3)`, `add_edge(2,4)` starting from the empty graph,
`depth_first_traversal(1)` returns exactly `[1, 2, 4, 3]` and
`breadth_first_traversal(1)` returns exactly `[1, 2, 3, 4]`. -/
theorem branch_traversals :
    (depth_first_traversal gBranch 1).1 = .ok [1, 2, 4, 3] ∧
    (breadth_first_traversal gBranch 1).1 = .ok [1, 2, 3, 4] :=
  ⟨rfl, rfl⟩

/-- Claim C9: every query and traversal operation leaves the node mapping
exactly as it was, whether it returns a value or raises: the post-state
component of each embedded query equals the pre-state. -/
theorem queries_pure (g : Graph α) (n m s : α) :
    (nodes g).2 = g ∧ (edges g).2 = g ∧ (has_node g n).2 = g ∧
    (neighbors g n).2 = g ∧ (adjacent g n m).2 = g ∧
    (depth_first_traversal g s).2 = g ∧ (breadth_first_traversal g s).2 = g :=
  ⟨rfl, rfl, rfl, rfl, rfl, rfl, rfl⟩

theorem refIntegrity_setdefault (g : Graph α) (n : α) (h : RefIntegrity g) :
    RefIntegrity (setdefault g n) := by
  by_cases hk : hasKey g n = true
  · rwa [setdefault_of_hasKey g n hk]
  · rw [setdefault_of_absent g n (Bool.eq_false_iff.2 hk)]
    intro p hp x hx
    rcases List.mem_append.1 hp with hp1 | hp1
    · rw [hasKey_append]
      exact Bool.or_eq_true_iff.2 (Or.inl (h p hp1 x hx))
    · rw [List.mem_singleton] at hp1
      subst hp1
      cases hx

theorem refIntegrity_mono_append (g : Graph α) (l₂ : List (α × List α))
    (p : α × List α) (hp : p ∈ g._nodes) (x : α) (hx : x ∈ p.2)
    (h : RefIntegrity g) :
    hasKey (⟨g._nodes ++ l₂⟩ : Graph α) x = true := by
  rw [hasKey_append]
  exact Bool.or_eq_true_iff.2 (Or.inl (h p hp x hx))

/-- Claim C1 counterexample: on the reachable state `{1: [2]}` (built by
`add_edge(1,2)` then `del_node(2)`), the call `add_edge(1, 2)` raises the
duplicate-edge `ValueError` yet mutates the node mapping: the two
`setdefault`s have already re-created node 2.  So not every operation is
atomic with respect to failure. -/
theorem add_edge_not_atomic :
    gDangling = (del_node (add_edge (emptyGraph : Graph ℕ) 1 2).2 2).2 ∧
    (add_edge gDangling 1 2).1 = .error (.valueError "This edge already exists.") ∧
    (add_edge gDangling 1 2).2 ≠ gDangling := by
  refine ⟨rfl, rfl, ?_⟩
  decide

/-- Claim C1 (amended): every operation except `add_edge` leaves the node
mapping unchanged when it raises; a failed `add_edge(a, b)` leaves the
graph in the state produced by the two `setdefault`s (so it may have
created an absent endpoint `b` before raising the duplicate-edge error),
and the read-only operations never change the mapping at all. -/
theorem ops_atomic_on_failure (g : Graph α) (a b : α) :
    ((add_node g a).1.isOk = false → (add_node g a).2 = g) ∧
    ((del_node g b).1.isOk = false → (del_node g b).2 = g) ∧
    ((del_edge g b a).1.isOk = false → (del_edge g b a).2 = g) ∧
    ((add_edge g a b).1.isOk = false →
      (add_edge g a b).2 = setdefault (setdefault g a) b) ∧
    (neighbors g a).2 = g ∧ (adjacent g a b).2 = g ∧
    (depth_first_traversal g a).2 = g ∧ (breadth_first_traversal g a).2 = g := by
  refine ⟨?_, ?_, ?_, ?_, rfl, rfl, rfl, rfl⟩
  · intro h
    by_cases hk : hasKey g a = true
    · simp [add_node, hk]
    · exfalso
      rw [add_node, if_neg (by simp [hk])] at h
      exact Bool.noConfusion h
  · intro h
    by_cases hk : hasKey g b = true
    · exfalso
      rw [del_node, if_pos hk] at h
      exact Bool.noConfusion h
    · simp [del_node, hk]
  · intro h
    rcases hl : lookup g b with _ | l
    · simp [del_edge, hl]
    · by_cases hm : a ∈ l
      · exfalso
        rw [del_edge, hl] at h
        simp only [hm, if_pos] at h
        exact Bool.noConfusion h
      · simp [del_edge, hl, hm]
  · intro h
    by_cases hm : b ∈ (lookup g a).getD []
    · rw [add_edge_err g a b hm]
    · exfalso
      rw [add_edge_ok_eq g a b hm] at h
      exact Bool.noConfusion h

/-- Concrete witness for the amended C1 theorem: on the dangling state
`{1: [2]}` all four mutators fail at the chosen arguments, and the failed
`add_edge(1,2)` leaves exactly the double-`setdefault` state. -/
theorem ops_atomic_on_failure_witness :
    (add_node gDangling 1).2 = gDangling ∧
    (del_node gDangling 2).2 = gDangling ∧
    (del_edge gDangling 2 1).2 = gDangling ∧
    (add_edge gDangling 1 2).2 = setdefault (setdefault gDangling 1) 2 :=
  ⟨(ops_atomic_on_failure gDangling 1 2).1 (by decide),
   (ops_atomic_on_failure gDangling 1 2).2.1 (by decide),
   (ops_atomic_on_failure gDangling 1 2).2.2.1 (by decide),
   (ops_atomic_on_failure gDangling 1 2).2.2.2.1 (by decide)⟩

/-- Claim C7: when `a` and/or `b` is absent and `b` is not already a
successor of `a`, `add_edge(a, b)` succeeds, appends `b` to `a`'s successor
sequence (creating `a` with no other outgoing edges if it was absent),
creates an absent `b` with an empty successor sequence, and adds no key
beyond `a` and `b`; moreover `add_edge` is the only operation that
implicitly creates nodes — `add_node` only adds its explicit argument and
the deletion operations never add a key. -/
theorem add_edge_creates_endpoints (g : Graph α) (a b : α)
    (habs : hasKey g a = false ∨ hasKey g b = false)
    (hmem : b ∉ (lookup g a).getD []) :
    (add_edge g a b).1 = .ok () ∧
    lookup (add_edge g a b).2 a = some ((lookup g a).getD [] ++ [b]) ∧
    (b ≠ a → hasKey g b = false → lookup (add_edge g a b).2 b = some []) ∧
    (∀ m, hasKey (add_edge g a b).2 m = true ↔
      (hasKey g m = true ∨ m = a ∨ m = b)) ∧
    (∀ n m, hasKey (add_node g n).2 m = true → (hasKey g m = true ∨ m = n)) ∧
    (∀ n m, hasKey (del_node g n).2 m = true → hasKey g m = true) ∧
    (∀ x y m, hasKey (del_edge g x y).2 m = hasKey g m) := by
  refine ⟨?_, add_edge_post_lookup_self g a b hmem, ?_, ?_, ?_, ?_, ?_⟩
  · rw [add_edge_ok_eq g a b hmem]
  · intro hba hb
    rw [add_edge_post_lookup_ne g a b b hba hmem,
      lookup_setdefault_self, lookup_setdefault_of_ne g a b hba,
      (lookup_none_iff g b).2 hb]
    exact rfl
  · exact fun m => hasKey_add_edge_post g a b m hmem
  · intro n m hm
    by_cases hk : hasKey g n = true
    · rw [add_node, if_pos hk] at hm
      exact Or.inl hm
    · rw [add_node, if_neg (by simp [hk])] at hm
      rw [show ((Except.ok (), (⟨g._nodes ++ [(n, [])]⟩ : Graph α)).2 : Graph α)
          = ⟨g._nodes ++ [(n, [])]⟩ from rfl, hasKey_append] at hm
      rcases Bool.or_eq_true_iff.1 hm with h1 | h1
      · exact Or.inl h1
      · right
        have hb : (n == m) = true := by simpa [hasKey] using h1
        exact (eq_of_beq hb).symm
  · intro n m hm
    by_cases hk : hasKey g n = true
    · rw [del_node, if_pos hk] at hm
      simp only [hasKey, List.any_eq_true] at hm ⊢
      obtain ⟨p, hp, hb⟩ := hm
      exact ⟨p, List.mem_of_mem_filter hp, hb⟩
    · rw [del_node, if_neg (by simp [hk])] at hm
      exact hm
  · intro x y m
    rcases hl : lookup g x with _ | l
    · rw [del_edge, hl]
    · by_cases hm : y ∈ l
      · rw [del_edge, hl]
        simp only [hm, if_pos]
        exact hasKey_updateKey _ _ _ m
      · rw [del_edge, hl]
        simp only [hm, if_neg]
        rfl

/-- Concrete witness for C7: adding the edge 3→4 to the graph `{1: [2]}`,
with every hypothesis of the theorem discharged at concrete inputs. -/
theorem add_edge_creates_endpoints_witness :
    (add_edge gDangling 3 4).1 = .ok () ∧
    lookup (add_edge gDangling 3 4).2 3 =
      some ((lookup gDangling 3).getD [] ++ [4]) ∧
    lookup (add_edge gDangling 3 4).2 4 = some [] ∧
    (hasKey (add_edge gDangling 3 4).2 2 = true ↔
      (hasKey gDangling 2 = true ∨ (2 : ℕ) = 3 ∨ (2 : ℕ) = 4)) ∧
    (hasKey gDangling 5 = true ∨ (5 : ℕ) = 5) ∧
    hasKey gDangling 1 = true ∧
    hasKey (del_edge gDangling 1 2).2 2 = hasKey gDangling 2 :=
  ⟨(add_edge_creates_endpoints gDangling 3 4 (Or.inl (by decide)) (by decide)).1,
   (add_edge_creates_endpoints gDangling 3 4 (Or.inl (by decide)) (by decide)).2.1,
   (add_edge_creates_endpoints gDangling 3 4 (Or.inl (by decide)) (by decide)).2.2.1
     (by decide) (by decide),
   (add_edge_creates_endpoints gDangling 3 4 (Or.inl (by decide)) (by decide)).2.2.2.1 2,
   (add_edge_creates_endpoints gDangling 3 4 (Or.inl (by decide)) (by decide)).2.2.2.2.1
     5 5 (by decide),
   (add_edge_creates_endpoints gDangling 3 4 (Or.inl (by decide)) (by decide)).2.2.2.2.2.1
     2 1 (by decide),
   (add_edge_creates_endpoints gDangling 3 4 (Or.inl (by decide)) (by decide)).2.2.2.2.2.2
     1 2 2⟩

/-- Claim C8: `adjacent(a, b)` raises `KeyError` whenever either argument
is absent (the presence check runs before the adjacency test), and when
both are present it returns `True` exactly when `b` is in `a`'s successor
sequence. -/
theorem adjacent_spec (g : Graph α) (a b c : α) :
    (hasKey g c = false →
      (adjacent g a c).1 = .error .keyError ∧
      (adjacent g c b).1 = .error .keyError) ∧
    (hasKey g a = true → hasKey g b = true →
      ((adjacent g a b).1 = .ok true ↔ b ∈ (lookup g a).getD [])) := by
  constructor
  · intro hc
    constructor
    · simp [adjacent, hc]
    · simp [adjacent, hc]
  · intro ha hb
    obtain ⟨l, hl⟩ := lookup_of_hasKey g a ha
    by_cases hm : b ∈ l
    · simp [adjacent, ha, hb, hl, hm]
    · simp [adjacent, ha, hb, hl, hm]

/-- Concrete witness for C8 on the branching graph, with 9 as the absent
node and all hypotheses discharged. -/
theorem adjacent_spec_witness :
    (adjacent gBranch 1 9).1 = .error .keyError ∧
    (adjacent gBranch 9 2).1 = .error .keyError ∧
    ((adjacent gBranch 1 2).1 = .ok true ↔ (2 : ℕ) ∈ (lookup gBranch 1).getD []) :=
  ⟨((adjacent_spec gBranch 1 2 9).1 (by decide)).1,
   ((adjacent_spec gBranch 1 2 9).1 (by decide)).2,
   (adjacent_spec gBranch 1 2 9).2 (by decide) (by decide)⟩

/-- Claim C3 counterexample: referential integrity is not an invariant of
all reachable states: starting from the empty graph, `add_edge(1,2)`
establishes it, but `del_node(2)` produces the reachable state `{1: [2]}`
in which node 2 appears in node 1's successor sequence yet has no entry. -/
theorem del_node_breaks_integrity :
    gDangling = (del_node (add_edge (emptyGraph : Graph ℕ) 1 2).2 2).2 ∧
    RefIntegrity (add_edge (emptyGraph : Graph ℕ) 1 2).2 ∧
    ¬ RefIntegrity gDangling :=
  ⟨rfl, by decide, by decide⟩

/-- Claim C3 (amended): referential integrity is preserved by `add_node`,
`add_edge` and `del_edge` (whether they succeed or fail), so it holds in
every state reachable without `del_node`; `del_node` is the one mutation
that can break it. -/
theorem integrity_preserved_without_del_node (g : Graph α) (n a b : α)
    (h : RefIntegrity g) :
    RefIntegrity (add_node g n).2 ∧
    RefIntegrity (add_edge g a b).2 ∧
    RefIntegrity (del_edge g a b).2 := by
  refine ⟨?_, ?_, ?_⟩
  · by_cases hk : hasKey g n = true
    · rw [add_node, if_pos hk]
      exact h
    · have e : (add_node g n).2 = ⟨g._nodes ++ [(n, [])]⟩ := by
        rw [add_node, if_neg (by simp [hk])]
      rw [e]
      intro p hp x hx
      rcases List.mem_append.1 hp with hp1 | hp1
      · exact refIntegrity_mono_append g _ p hp1 x hx h
      · rw [List.mem_singleton] at hp1
        subst hp1
        cases hx
  · have hg2RI : RefIntegrity (setdefault (setdefault g a) b) :=
      refIntegrity_setdefault _ b (refIntegrity_setdefault g a h)
    by_cases hm : b ∈ (lookup g a).getD []
    · rw [add_edge_err g a b hm]
      exact hg2RI
    · rw [add_edge_ok_eq g a b hm]
      have hl0 : lookup (setdefault (setdefault g a) b) a =
          some ((lookup g a).getD []) := lookup_setdefault2_left g a b
      intro p hp x hx
      show hasKey (⟨updateKey (setdefault (setdefault g a) b)._nodes a
        ((lookup g a).getD [] ++ [b])⟩ : Graph α) x = true
      rw [hasKey_updateKey]
      simp only [updateKey] at hp
      obtain ⟨q, hq, hfq⟩ := List.mem_map.1 hp
      by_cases hqa : q.1 = a
      · have hpq : p = (a, (lookup g a).getD [] ++ [b]) := by
          rw [← hfq]
          simp [hqa]
        rw [hpq] at hx
        rcases List.mem_append.1 hx with hx1 | hx1
        · obtain ⟨q0, hq0, hq0a, hq0l⟩ := lookup_some_entry _ a _ hl0
          exact hg2RI q0 hq0 x (hq0l ▸ hx1)
        · rw [List.mem_singleton] at hx1
          exact (hasKey_setdefault_iff _ b x).2 (Or.inr hx1)
      · have hpq : p = q := by
          rw [← hfq]
          simp [hqa]
        exact hg2RI q hq x (hpq ▸ hx)
  · rcases hl : lookup g a with _ | l
    · rw [del_edge, hl]
      exact h
    · by_cases hm : b ∈ l
      · have e : (del_edge g a b).2 = ⟨updateKey g._nodes a (l.erase b)⟩ := by
          rw [del_edge, hl]
          simp only [hm, if_pos]
        rw [e]
        intro p hp x hx
        show hasKey (⟨updateKey g._nodes a (l.erase b)⟩ : Graph α) x = true
        rw [hasKey_updateKey]
        simp only [updateKey] at hp
        obtain ⟨q, hq, hfq⟩ := List.mem_map.1 hp
        by_cases hqa : q.1 = a
        · have hpq : p = (a, l.erase b) := by
            rw [← hfq]
            simp [hqa]
          obtain ⟨q0, hq0, hq0a, hq0l⟩ := lookup_some_entry g a _ hl
          have hx' : x ∈ l := List.erase_subset _ _ (hpq ▸ hx)
          exact h q0 hq0 x (hq0l ▸ hx')
        · have hpq : p = q := by
            rw [← hfq]
            simp [hqa]
          exact h q hq x (hpq ▸ hx)
      · have e : (del_edge g a b).2 = g := by
          simp [del_edge, hl, hm]
        rw [e]
        exact h

/-- Concrete witness for the amended C3 theorem on the branching graph. -/
theorem integrity_preserved_witness :
    RefIntegrity (add_node gBranch 7).2 ∧
    RefIntegrity (add_edge gBranch 1 2).2 ∧
    RefIntegrity (del_edge gBranch 1 2).2 :=
  integrity_preserved_without_del_node gBranch 7 1 2 (by decide)

/-! ### Depth-first traversal: inversion, threading, uniqueness, termination -/

theorem hasKey_iff_mem_keyList (g : Graph α) (s : α) :
    hasKey g s = true ↔ s ∈ keyList g := by
  simp [hasKey, keyList, List.any_eq_true]

theorem unvisited_mono (g : Graph α) (prev prev2 : List α)
    (h : ∀ x, x ∈ prev → x ∈ prev2) :
    unvisited g prev2 ≤ unvisited g prev := by
  apply List.Sublist.length_le
  apply List.monotone_filter_right
  intro a ha
  have ha' := of_decide_eq_true ha
  exact decide_eq_true (fun hm => ha' (h a hm))

theorem unvisited_strict (g : Graph α) (prev : List α) (s : α)
    (hk : hasKey g s = true) (hs : s ∉ prev) :
    unvisited g (prev ++ [s]) < unvisited g prev := by
  have hsub : ((keyList g).dedup.filter (fun x => decide (x ∉ prev ++ [s]))).Sublist
      ((keyList g).dedup.filter (fun x => decide (x ∉ prev))) := by
    apply List.monotone_filter_right
    intro a ha
    have ha' := of_decide_eq_true ha
    exact decide_eq_true (fun hm => ha' (List.mem_append.2 (Or.inl hm)))
  apply Nat.lt_of_le_of_ne hsub.length_le
  intro heq
  have heql := hsub.eq_of_length heq
  have hmem : s ∈ (keyList g).dedup.filter (fun x => decide (x ∉ prev)) := by
    rw [List.mem_filter]
    exact ⟨List.mem_dedup.2 ((hasKey_iff_mem_keyList g s).1 hk), decide_eq_true hs⟩
  rw [← heql, List.mem_filter] at hmem
  exact (of_decide_eq_true hmem.2)
    (List.mem_append.2 (Or.inr (List.mem_singleton.2 rfl)))

theorem unvisited_le (g : Graph α) (prev : List α) :
    unvisited g prev ≤ g._nodes.length := by
  calc ((keyList g).dedup.filter (fun x => decide (x ∉ prev))).length
      ≤ (keyList g).dedup.length := List.length_filter_le _ _
    _ ≤ (keyList g).length := (List.dedup_sublist _).length_le
    _ = g._nodes.length := List.length_map _ _

theorem dfsListGo_cons_ok (rec : α → List α → Option (Except Err (List α × List α)))
    (y : α) (ys prev p prev2 : List α)
    (h : dfsListGo rec (y :: ys) prev = some (.ok (p, prev2))) :
    ∃ p1 prev1 q, rec y prev = some (.ok (p1, prev1)) ∧
      dfsListGo rec ys prev1 = some (.ok (q, prev2)) ∧ p = p1 ++ q := by
  rcases hr : rec y prev with _ | e
  · simp [dfsListGo, hr] at h
  · cases e with
    | error e0 => simp [dfsListGo, hr] at h
    | ok r1 =>
      obtain ⟨p1, prev1⟩ := r1
      rcases hgo : dfsListGo rec ys prev1 with _ | e2
      · simp [dfsListGo, hr, hgo] at h
      · cases e2 with
        | error e3 => simp [dfsListGo, hr, hgo] at h
        | ok r2 =>
          obtain ⟨q, prev2x⟩ := r2
          simp only [dfsListGo, hr, hgo] at h
          obtain ⟨h1, h2⟩ : p1 ++ q = p ∧ prev2x = prev2 := by simpa using h
          rw [← h1, ← h2]
          exact ⟨p1, prev1, q, rfl, hgo, rfl⟩

theorem dfsNodeF_succ_ok (fuel : Nat) (g : Graph α) (s : α)
    (prev p prev2 : List α)
    (h : dfsNodeF (fuel + 1) g s prev = some (.ok (p, prev2))) :
    hasKey g s = true ∧
    ((s ∈ prev ∧ p = [] ∧ prev2 = prev) ∨
     (s ∉ prev ∧ ∃ q, p = s :: q ∧
       dfsListGo (fun x pr => dfsNodeF fuel g x pr)
         ((lookup g s).getD []) (prev ++ [s]) = some (.ok (q, prev2)))) := by
  by_cases hk : hasKey g s = true
  · refine ⟨hk, ?_⟩
    by_cases hp : s ∈ prev
    · left
      simp only [dfsNodeF, if_pos hk, if_pos hp] at h
      obtain ⟨h1, h2⟩ : [] = p ∧ prev = prev2 := by simpa using h
      exact ⟨hp, h1.symm, h2.symm⟩
    · right
      simp only [dfsNodeF, if_pos hk, if_neg hp] at h
      rcases hgo : dfsListGo (fun x pr => dfsNodeF fuel g x pr)
          ((lookup g s).getD []) (prev ++ [s]) with _ | e
      · simp [hgo] at h
      · cases e with
        | error e0 => simp [hgo] at h
        | ok r =>
          obtain ⟨q, prev2x⟩ := r
          simp only [hgo] at h
          obtain ⟨h1, h2⟩ : s :: q = p ∧ prev2x = prev2 := by simpa using h
          rw [← h1, ← h2]
          exact ⟨hp, q, rfl, rfl⟩
  · simp [dfsNodeF, hk] at h

theorem dfsNodeF_ok_hasKey (fuel : Nat) (g : Graph α) (s : α) (prev : List α)
    (r : List α × List α) (h : dfsNodeF fuel g s prev = some (.ok r)) :
    hasKey g s = true := by
  cases fuel with
  | zero => cases h
  | succ fuel =>
    by_cases hk : hasKey g s = true
    · exact hk
    · simp [dfsNodeF, hk] at h

theorem dfsNodeF_prev : ∀ (fuel : Nat) (g : Graph α) (s : α)
    (prev p prev2 : List α),
    dfsNodeF fuel g s prev = some (.ok (p, prev2)) →
    prev2 = prev ++ p ∧ ∀ x ∈ p, hasKey g x = true := by
  intro fuel
  induction fuel with
  | zero => intro g s prev p prev2 h; cases h
  | succ fuel ih =>
    have hlist : ∀ (g : Graph α) (l prev p prev2 : List α),
        dfsListGo (fun x pr => dfsNodeF fuel g x pr) l prev = some (.ok (p, prev2)) →
        prev2 = prev ++ p ∧ ∀ x ∈ p, hasKey g x = true := by
      intro g l
      induction l with
      | nil =>
        intro prev p prev2 h
        obtain ⟨h1, h2⟩ : [] = p ∧ prev = prev2 := by simpa [dfsListGo] using h
        refine ⟨by rw [← h2, ← h1, List.append_nil], ?_⟩
        intro x hx
        rw [← h1] at hx
        cases hx
      | cons y ys ihl =>
        intro prev p prev2 h
        obtain ⟨p1, prev1, q, hr, hgo, hpq⟩ := dfsListGo_cons_ok _ y ys prev p prev2 h
        obtain ⟨ha, hb⟩ := ih g y prev p1 prev1 hr
        obtain ⟨hc, hd⟩ := ihl prev1 q prev2 hgo
        subst hpq
        refine ⟨by rw [hc, ha, List.append_assoc], ?_⟩
        intro x hx
        rcases List.mem_append.1 hx with h1 | h1
        · exact hb x h1
        · exact hd x h1
    intro g s prev p prev2 h
    obtain ⟨hk, hcase⟩ := dfsNodeF_succ_ok fuel g s prev p prev2 h
    rcases hcase with ⟨hp, hpe, hpr⟩ | ⟨hp, q, hpq, hgo⟩
    · refine ⟨by rw [hpr, hpe, List.append_nil], ?_⟩
      intro x hx
      rw [hpe] at hx
      cases hx
    · obtain ⟨ha, hb⟩ := hlist g _ _ _ _ hgo
      subst hpq
      refine ⟨by rw [ha, List.append_assoc]; rfl, ?_⟩
      intro x hx
      rcases List.mem_cons.1 hx with rfl | h1
      · exact hk
      · exact hb x h1

theorem dfsNodeF_nodup : ∀ (fuel : Nat) (g : Graph α) (s : α)
    (prev p prev2 : List α), prev.Nodup →
    dfsNodeF fuel g s prev = some (.ok (p, prev2)) → prev2.Nodup := by
  intro fuel
  induction fuel with
  | zero => intro g s prev p prev2 hn h; cases h
  | succ fuel ih =>
    have hlist : ∀ (g : Graph α) (l prev p prev2 : List α), prev.Nodup →
        dfsListGo (fun x pr => dfsNodeF fuel g x pr) l prev = some (.ok (p, prev2)) →
        prev2.Nodup := by
      intro g l
      induction l with
      | nil =>
        intro prev p prev2 hn h
        obtain ⟨h1, h2⟩ : [] = p ∧ prev = prev2 := by simpa [dfsListGo] using h
        rwa [← h2]
      | cons y ys ihl =>
        intro prev p prev2 hn h
        obtain ⟨p1, prev1, q, hr, hgo, hpq⟩ := dfsListGo_cons_ok _ y ys prev p prev2 h
        exact ihl prev1 q prev2 (ih g y prev p1 prev1 hn hr) hgo
    intro g s prev p prev2 hn h
    obtain ⟨hk, hcase⟩ := dfsNodeF_succ_ok fuel g s prev p prev2 h
    rcases hcase with ⟨hp, hpe, hpr⟩ | ⟨hp, q, hpq, hgo⟩
    · rwa [hpr]
    · refine hlist g _ _ _ _ ?_ hgo
      refine List.Nodup.append hn (List.nodup_singleton s) ?_
      intro a ha hb
      rw [List.mem_singleton] at hb
      exact hp (hb ▸ ha)

theorem dfsNodeF_total : ∀ (fuel : Nat) (g : Graph α) (s : α) (prev : List α),
    unvisited g prev < fuel → (dfsNodeF fuel g s prev).isSome = true := by
  intro fuel
  induction fuel with
  | zero => intro g s prev h; exact absurd h (Nat.not_lt_zero _)
  | succ fuel ih =>
    have hlist : ∀ (g : Graph α) (l prev : List α), unvisited g prev < fuel →
        (dfsListGo (fun x pr => dfsNodeF fuel g x pr) l prev).isSome = true := by
      intro g l
      induction l with
      | nil => intro prev h; rfl
      | cons y ys ihl =>
        intro prev h
        have hy := ih g y prev h
        rcases hr : dfsNodeF fuel g y prev with _ | e
        · rw [hr] at hy; cases hy
        · cases e with
          | error e0 => simp [dfsListGo, hr]
          | ok r1 =>
            obtain ⟨p1, prev1⟩ := r1
            have hsub := (dfsNodeF_prev fuel g y prev p1 prev1 hr).1
            have hmono : unvisited g prev1 ≤ unvisited g prev :=
              unvisited_mono g prev prev1
                (by intro x hx; rw [hsub]; exact List.mem_append.2 (Or.inl hx))
            have hys := ihl prev1 (Nat.lt_of_le_of_lt hmono h)
            rcases hgo : dfsListGo (fun x pr => dfsNodeF fuel g x pr) ys prev1 with _ | e2
            · rw [hgo] at hys; cases hys
            · cases e2 with
              | error e3 => simp [dfsListGo, hr, hgo]
              | ok r2 => simp [dfsListGo, hr, hgo]
    intro g s prev h
    by_cases hk : hasKey g s = true
    · by_cases hp : s ∈ prev
      · simp [dfsNodeF, hk, hp]
      · have hlt : unvisited g (prev ++ [s]) < fuel := by
          have h1 := unvisited_strict g prev s hk hp
          omega
        have hgo' := hlist g ((lookup g s).getD []) (prev ++ [s]) hlt
        rcases hgo : dfsListGo (fun x pr => dfsNodeF fuel g x pr)
            ((lookup g s).getD []) (prev ++ [s]) with _ | e
        · rw [hgo] at hgo'; cases hgo'
        · cases e with
          | error e0 => simp [dfsNodeF, hk, hp, hgo]
          | ok r =>
            obtain ⟨p, prev2⟩ := r
            simp [dfsNodeF, hk, hp, hgo]
    · simp [dfsNodeF, hk]

theorem dfsNodeF_total_std (g : Graph α) (s : α) :
    (dfsNodeF (dfsFuel g) g s []).isSome = true := by
  apply dfsNodeF_total
  have := unvisited_le g []
  simp only [dfsFuel]
  omega

/-- Claim C6: for every graph and present start node — in particular on
graphs with a cycle through the start, such as 1→2, 2→3, 3→1 — the
depth-first traversal terminates (the recursion closes within the proven
fuel bound, never running out), and its output contains each visited node
exactly once: the returned path has no duplicates, so a node already seen
in the current traversal is never revisited. -/
theorem dfs_terminates_no_revisit (g : Graph α) (start : α)
    (hk : hasKey g start = true) :
    (dfsNodeF (dfsFuel g) g start []).isSome = true ∧
    ∀ out, (depth_first_traversal g start).1 = .ok out → out.Nodup := by
  refine ⟨dfsNodeF_total_std g start, ?_⟩
  intro out hout
  rcases hr : dfsNodeF (dfsFuel g) g start [] with _ | e
  · simp [depth_first_traversal, hr] at hout
  · cases e with
    | error e0 => simp [depth_first_traversal, hr] at hout
    | ok r =>
      obtain ⟨p, prev2⟩ := r
      have hpout : p = out := by simpa [depth_first_traversal, hr] using hout
      have h1 := (dfsNodeF_prev _ g start [] p prev2 hr).1
      have h2 := dfsNodeF_nodup _ g start [] p prev2 List.nodup_nil hr
      rw [h1] at h2
      rw [← hpout]
      simpa using h2

/-- Concrete witness for C6 on the three-cycle 1→2, 2→3, 3→1. -/
theorem dfs_terminates_no_revisit_witness :
    (dfsNodeF (dfsFuel gCycle) gCycle 1 []).isSome = true ∧
    ([1, 2, 3] : List ℕ).Nodup :=
  ⟨(dfs_terminates_no_revisit gCycle 1 (by decide)).1,
   (dfs_terminates_no_revisit gCycle 1 (by decide)).2 [1, 2, 3] (by decide)⟩

/-- Claim C10: self-loops are supported: for every graph and node `n` not
already a successor of itself, `add_edge(n, n)` succeeds; afterwards
`adjacent(n, n)` returns `True`, and `depth_first_traversal(n)` terminates
within the proven fuel bound and, whenever it returns a path, emits `n`
exactly once. -/
theorem self_loop_supported (g : Graph α) (n : α)
    (h : n ∉ (lookup g n).getD []) :
    (add_edge g n n).1 = .ok () ∧
    (adjacent (add_edge g n n).2 n n).1 = .ok true ∧
    (dfsNodeF (dfsFuel (add_edge g n n).2) (add_edge g n n).2 n []).isSome = true ∧
    ∀ out, (depth_first_traversal (add_edge g n n).2 n).1 = .ok out →
      List.count n out = 1 := by
  have hlook : lookup (add_edge g n n).2 n = some ((lookup g n).getD [] ++ [n]) :=
    add_edge_post_lookup_self g n n h
  have hkey : hasKey (add_edge g n n).2 n = true := hasKey_of_lookup _ _ _ hlook
  refine ⟨by rw [add_edge_ok_eq g n n h], ?_, dfsNodeF_total_std _ n, ?_⟩
  · have hmem : n ∈ (lookup g n).getD [] ++ [n] :=
      List.mem_append.2 (Or.inr (List.mem_singleton.2 rfl))
    simp [adjacent, hkey, hlook, hmem]
  · intro out hout
    rcases hr : dfsNodeF (dfsFuel (add_edge g n n).2) (add_edge g n n).2 n []
      with _ | e
    · simp [depth_first_traversal, hr] at hout
    · cases e with
      | error e0 => simp [depth_first_traversal, hr] at hout
      | ok r =>
        obtain ⟨p, prev2⟩ := r
        have hpout : p = out := by simpa [depth_first_traversal, hr] using hout
        have hr' : dfsNodeF ((add_edge g n n).2._nodes.length + 1)
            (add_edge g n n).2 n [] = some (.ok (p, prev2)) := hr
        obtain ⟨-, hcase⟩ := dfsNodeF_succ_ok _ _ n [] p prev2 hr'
        rcases hcase with ⟨hin, -, -⟩ | ⟨-, q, hpq, -⟩
        · cases hin
        · have h1 := (dfsNodeF_prev _ _ n [] p prev2 hr).1
          have h2 := dfsNodeF_nodup _ _ n [] p prev2 List.nodup_nil hr
          rw [h1] at h2
          have hnd : p.Nodup := by simpa using h2
          rw [← hpout, hpq]
          rw [hpq] at hnd
          rw [List.count_cons_self, List.count_eq_zero.2 (List.nodup_cons.1 hnd).1]

/-- Concrete witness for C10: a self-loop on node 1 in the empty graph. -/
theorem self_loop_supported_witness :
    (add_edge (emptyGraph : Graph ℕ) 1 1).1 = .ok () ∧
    (adjacent (add_edge (emptyGraph : Graph ℕ) 1 1).2 1 1).1 = .ok true ∧
    (dfsNodeF (dfsFuel (add_edge (emptyGraph : Graph ℕ) 1 1).2)
      (add_edge (emptyGraph : Graph ℕ) 1 1).2 1 []).isSome = true ∧
    List.count 1 [1] = 1 :=
  ⟨(self_loop_supported emptyGraph 1 (by decide)).1,
   (self_loop_supported emptyGraph 1 (by decide)).2.1,
   (self_loop_supported emptyGraph 1 (by decide)).2.2.1,
   (self_loop_supported emptyGraph 1 (by decide)).2.2.2 [1] (by decide)⟩

/-! ### Breadth-first traversal: inversion, layers, termination -/

theorem mem_mentioned_of_succ (g : Graph α) (item : α) (l : List α)
    (hl : lookup g item = some l) (x : α) (hx : x ∈ l) : x ∈ mentioned g := by
  obtain ⟨p, hp, hp1, hp2⟩ := lookup_some_entry g item l hl
  rw [mentioned, List.mem_dedup]
  exact List.mem_flatMap.2 ⟨p, hp, by rw [hp2]; exact List.mem_cons.2 (Or.inr hx)⟩

theorem bfsChildren_cons_ok (g : Graph α) (item : α) (rest path cs : List α)
    (h : bfsChildren g (item :: rest) path = .ok cs) :
    ∃ succs cs2, lookup g item = some succs ∧
      bfsChildren g rest path = .ok cs2 ∧
      cs = succs.filter (fun e => decide (e ∉ path)) ++ cs2 := by
  rcases hl : lookup g item with _ | succs
  · simp [bfsChildren, hl] at h
  · cases hr : bfsChildren g rest path with
    | error e => simp [bfsChildren, hl, hr] at h
    | ok cs2 =>
      simp only [bfsChildren, hl, hr] at h
      exact ⟨succs, cs2, rfl, rfl, by simpa using h.symm⟩

theorem bfsChildren_ok_fresh (g : Graph α) :
    ∀ (parent path cs : List α), bfsChildren g parent path = .ok cs →
      ∀ c ∈ cs, c ∉ path ∧ c ∈ mentioned g := by
  intro parent
  induction parent with
  | nil =>
    intro path cs h c hc
    obtain rfl : cs = [] := by simpa [bfsChildren] using h.symm
    cases hc
  | cons item rest ih =>
    intro path cs h c hc
    obtain ⟨succs, cs2, hl, hr, hcs⟩ := bfsChildren_cons_ok g item rest path cs h
    rw [hcs] at hc
    rcases List.mem_append.1 hc with h1 | h1
    · rw [List.mem_filter] at h1
      exact ⟨of_decide_eq_true h1.2, mem_mentioned_of_succ g item succs hl c h1.1⟩
    · exact ih path cs2 hr c h1

theorem bfsChildren_ok_keys (g : Graph α) :
    ∀ (parent path cs : List α), bfsChildren g parent path = .ok cs →
      ∀ item ∈ parent, hasKey g item = true := by
  intro parent
  induction parent with
  | nil => intro path cs h item hi; cases hi
  | cons it rest ih =>
    intro path cs h item hi
    obtain ⟨succs, cs2, hl, hr, -⟩ := bfsChildren_cons_ok g it rest path cs h
    rcases List.mem_cons.1 hi with rfl | h1
    · exact hasKey_of_lookup _ _ _ hl
    · exact ih path cs2 hr item h1

theorem bfsChildren_error (g : Graph α) :
    ∀ (parent path : List α) (e : Err),
      bfsChildren g parent path = .error e → e = .keyError := by
  intro parent
  induction parent with
  | nil => intro path e h; cases h
  | cons item rest ih =>
    intro path e h
    rcases hl : lookup g item with _ | succs
    · simp only [bfsChildren, hl] at h
      exact (Except.error.inj h).symm
    · cases hr : bfsChildren g rest path with
      | error e2 =>
        simp only [bfsChildren, hl, hr] at h
        exact (Except.error.inj h) ▸ ih path e2 hr
      | ok cs => simp [bfsChildren, hl, hr] at h

theorem unvisitedM_strict (g : Graph α) (path children : List α)
    (hne : children ≠ [])
    (hfresh : ∀ c ∈ children, c ∉ path ∧ c ∈ mentioned g) :
    unvisitedM g (path ++ children) < unvisitedM g path := by
  obtain ⟨c, hc⟩ := List.exists_mem_of_ne_nil children hne
  have hsub : ((mentioned g).filter (fun x => decide (x ∉ path ++ children))).Sublist
      ((mentioned g).filter (fun x => decide (x ∉ path))) := by
    apply List.monotone_filter_right
    intro a ha
    have ha' := of_decide_eq_true ha
    exact decide_eq_true (fun hm => ha' (List.mem_append.2 (Or.inl hm)))
  apply Nat.lt_of_le_of_ne hsub.length_le
  intro heq
  have heql := hsub.eq_of_length heq
  have hmem : c ∈ (mentioned g).filter (fun x => decide (x ∉ path)) := by
    rw [List.mem_filter]
    exact ⟨(hfresh c hc).2, decide_eq_true (hfresh c hc).1⟩
  rw [← heql, List.mem_filter] at hmem
  exact (of_decide_eq_true hmem.2) (List.mem_append.2 (Or.inr hc))

theorem bfsF_total : ∀ (fuel : Nat) (g : Graph α) (parent path : List α),
    unvisitedM g path < fuel → (bfsF fuel g parent path).isSome = true := by
  intro fuel
  induction fuel with
  | zero => intro g parent path h; exact absurd h (Nat.not_lt_zero _)
  | succ fuel ih =>
    intro g parent path h
    cases hc : bfsChildren g parent path with
    | error e => simp [bfsF, hc]
    | ok children =>
      by_cases hne : children = []
      · simp [bfsF, hc, hne]
      · have hfresh := bfsChildren_ok_fresh g parent path children hc
        have hlt : unvisitedM g (path ++ children) < fuel := by
          have := unvisitedM_strict g path children hne hfresh
          omega
        have := ih g children (path ++ children) hlt
        simpa [bfsF, hc, hne] using this

theorem bfsF_total_std (g : Graph α) (start : α) :
    (bfsF (bfsFuel g) g [start] [start]).isSome = true := by
  apply bfsF_total
  have : unvisitedM g [start] ≤ (mentioned g).length := List.length_filter_le _ _
  simp only [bfsFuel]
  omega

theorem bfsF_error : ∀ (fuel : Nat) (g : Graph α) (parent path : List α) (e : Err),
    bfsF fuel g parent path = some (.error e) → e = .keyError := by
  intro fuel
  induction fuel with
  | zero => intro g parent path e h; cases h
  | succ fuel ih =>
    intro g parent path e h
    cases hc : bfsChildren g parent path with
    | error e1 =>
      have he : e1 = e := by simpa [bfsF, hc] using h
      exact he ▸ bfsChildren_error g parent path e1 hc
    | ok children =>
      by_cases hne : children = []
      · simp [bfsF, hc, hne] at h
      · have h2 : bfsF fuel g children (path ++ children) = some (.error e) := by
          simpa [bfsF, hc, hne] using h
        exact ih g children (path ++ children) e h2

theorem bfsF_layers : ∀ (fuel : Nat) (g : Graph α) (parent path out : List α),
    bfsF fuel g parent path = some (.ok out) →
    ∃ layers, out = path ++ layers.flatten ∧ FreshLayers path layers := by
  intro fuel
  induction fuel with
  | zero => intro g parent path out h; cases h
  | succ fuel ih =>
    intro g parent path out h
    cases hc : bfsChildren g parent path with
    | error e => simp [bfsF, hc] at h
    | ok children =>
      by_cases hne : children = []
      · subst hne
        have hout : path ++ [] = out := by simpa [bfsF, hc] using h
        refine ⟨[], ?_, trivial⟩
        rw [← hout, List.flatten_nil]
      · have h2 : bfsF fuel g children (path ++ children) = some (.ok out) := by
          simpa [bfsF, hc, hne] using h
        obtain ⟨layers, hl1, hl2⟩ := ih g children (path ++ children) out h2
        refine ⟨children :: layers, ?_, ?_⟩
        · rw [hl1, List.flatten_cons, List.append_assoc]
        · exact ⟨fun c hcm => (bfsChildren_ok_fresh g parent path children hc c hcm).1, hl2⟩

/-- Claim C2 counterexample: on the diamond graph with edges 1→2, 1→3,
2→4, 3→4 (built by `add_edge` from the empty graph), node 1 is present but
`breadth_first_traversal(1)` returns `[1, 2, 3, 4, 4]` — node 4, freshly
discovered via both parents 2 and 3 within the same layer, is emitted
twice, so the output is not duplicate-free. -/
theorem bfs_emits_duplicates :
    hasKey gDiamond 1 = true ∧
    (breadth_first_traversal gDiamond 1).1 = .ok [1, 2, 3, 4, 4] ∧
    ¬ ([1, 2, 3, 4, 4] : List ℕ).Nodup :=
  ⟨by decide, rfl, by decide⟩

/-- Claim C2 (amended): for every graph and start node, whenever
`breadth_first_traversal(start)` returns, its output lists `start` first and
then proceeds layer by layer until no new nodes are discovered; each layer
contains only nodes not yet emitted when the layer began (so no node
appears in two different layers and `start` is never re-emitted), but
within a single layer a node discovered via several parents is emitted
once per discovering parent, so the output may contain duplicates. -/
theorem bfs_layers_spec (g : Graph α) (start : α) (out : List α)
    (h : (breadth_first_traversal g start).1 = .ok out) :
    ∃ layers, out = start :: layers.flatten ∧ FreshLayers [start] layers := by
  rcases hr : bfsF (bfsFuel g) g [start] [start] with _ | e
  · simp [breadth_first_traversal, hr] at h
  · cases e with
    | error e0 => simp [breadth_first_traversal, hr] at h
    | ok o =>
      have ho : o = out := by simpa [breadth_first_traversal, hr] using h
      obtain ⟨layers, h1, h2⟩ := bfsF_layers _ g [start] [start] o hr
      exact ⟨layers, by rw [← ho, h1]; rfl, h2⟩

/-- Concrete witness for the amended C2 theorem on the branching graph. -/
theorem bfs_layers_spec_witness :
    ∃ layers, ([1, 2, 3, 4] : List ℕ) = 1 :: layers.flatten ∧
      FreshLayers [1] layers :=
  bfs_layers_spec gBranch 1 [1, 2, 3, 4] (by decide)

/-! ### Depth-first error characterization and claim C4 -/

theorem dfsNodeF_error : ∀ (fuel : Nat) (g : Graph α) (s : α)
    (prev : List α) (e : Err),
    dfsNodeF fuel g s prev = some (.error e) → e = .keyError := by
  intro fuel
  induction fuel with
  | zero => intro g s prev e h; cases h
  | succ fuel ih =>
    have hlist : ∀ (g : Graph α) (l prev : List α) (e : Err),
        dfsListGo (fun x pr => dfsNodeF fuel g x pr) l prev = some (.error e) →
        e = .keyError := by
      intro g l
      induction l with
      | nil => intro prev e h; simp [dfsListGo] at h
      | cons y ys ihl =>
        intro prev e h
        rcases hr : dfsNodeF fuel g y prev with _ | e1
        · simp [dfsListGo, hr] at h
        · cases e1 with
          | error e2 =>
            have he : e2 = e := by simpa [dfsListGo, hr] using h
            exact he ▸ ih g y prev e2 hr
          | ok r =>
            obtain ⟨p1, prev1⟩ := r
            rcases hgo : dfsListGo (fun x pr => dfsNodeF fuel g x pr) ys prev1
              with _ | e2
            · simp [dfsListGo, hr, hgo] at h
            · cases e2 with
              | error e3 =>
                have he : e3 = e := by simpa [dfsListGo, hr, hgo] using h
                exact he ▸ ihl prev1 e3 hgo
              | ok r2 => simp [dfsListGo, hr, hgo] at h
    intro g s prev e h
    by_cases hk : hasKey g s = true
    · by_cases hp : s ∈ prev
      · simp [dfsNodeF, hk, hp] at h
      · simp only [dfsNodeF, if_pos hk, if_neg hp] at h
        rcases hgo : dfsListGo (fun x pr => dfsNodeF fuel g x pr)
            ((lookup g s).getD []) (prev ++ [s]) with _ | e1
        · simp [hgo] at h
        · cases e1 with
          | error e2 =>
            have he : e2 = e := by simpa [hgo] using h
            exact he ▸ hlist g _ _ e2 hgo
          | ok r => obtain ⟨p, prev2⟩ := r; simp [hgo] at h
    · have he : Err.keyError = e := by simpa [dfsNodeF, hk] using h
      exact he.symm

theorem dfsListGo_ok_keys (fuel : Nat) (g : Graph α) :
    ∀ (l prev p prev2 : List α),
      dfsListGo (fun x pr => dfsNodeF fuel g x pr) l prev = some (.ok (p, prev2)) →
      ∀ x ∈ l, hasKey g x = true := by
  intro l
  induction l with
  | nil => intro prev p prev2 h x hx; cases hx
  | cons y ys ih =>
    intro prev p prev2 h x hx
    obtain ⟨p1, prev1, q, hr, hgo, -⟩ := dfsListGo_cons_ok _ y ys prev p prev2 h
    rcases List.mem_cons.1 hx with rfl | h1
    · exact dfsNodeF_ok_hasKey fuel g x prev _ hr
    · exact ih prev1 q prev2 hgo x h1

/-- Claim C4 counterexample: in `{1: [2]}` (reachable via `add_edge(1,2)`
then `del_node(2)`) node 1 is present and its successor 2 is absent, yet
`depth_first_traversal(1)` and `breadth_first_traversal(1)` both raise
`KeyError` rather than completing. -/
theorem traversals_error_on_dangling :
    hasKey gDangling 1 = true ∧ hasKey gDangling 2 = false ∧
    (2 : ℕ) ∈ (lookup gDangling 1).getD [] ∧
    (depth_first_traversal gDangling 1).1 = .error .keyError ∧
    (breadth_first_traversal gDangling 1).1 = .error .keyError :=
  ⟨by decide, by decide, by decide, rfl, rfl⟩

/-- Claim C4 (amended): traversals do not tolerate dangling successor
references: for every graph in which a present node `m` has an absent node
`n` in its successor sequence, `depth_first_traversal(m)` and
`breadth_first_traversal(m)` both raise `KeyError` instead of completing. -/
theorem traversals_raise_on_dangling (g : Graph α) (m n : α)
    (hm : hasKey g m = true) (hn : hasKey g n = false)
    (hmem : n ∈ (lookup g m).getD []) :
    (depth_first_traversal g m).1 = .error .keyError ∧
    (breadth_first_traversal g m).1 = .error .keyError := by
  have hnm : n ≠ m := by
    intro heq
    rw [heq, hm] at hn
    cases hn
  constructor
  · have htot := dfsNodeF_total_std g m
    rcases hr : dfsNodeF (dfsFuel g) g m [] with _ | e
    · rw [hr] at htot; cases htot
    · cases e with
      | error e0 =>
        have := dfsNodeF_error _ g m [] e0 hr
        subst this
        simp [depth_first_traversal, hr]
      | ok r =>
        exfalso
        obtain ⟨p, prev2⟩ := r
        have hr' : dfsNodeF (g._nodes.length + 1) g m [] = some (.ok (p, prev2)) := hr
        obtain ⟨-, hcase⟩ := dfsNodeF_succ_ok _ g m [] p prev2 hr'
        rcases hcase with ⟨hin, -, -⟩ | ⟨-, q, -, hgo⟩
        · cases hin
        · have hkx := dfsListGo_ok_keys _ g _ _ _ _ hgo n hmem
          rw [hkx] at hn
          cases hn
  · have htot := bfsF_total_std g m
    rcases hb : bfsF (bfsFuel g) g [m] [m] with _ | e
    · rw [hb] at htot; cases htot
    · cases e with
      | error e0 =>
        have := bfsF_error _ g [m] [m] e0 hb
        subst this
        simp [breadth_first_traversal, hb]
      | ok out =>
        exfalso
        have hb' : bfsF ((mentioned g).length + 1) g [m] [m] = some (.ok out) := hb
        cases hc : bfsChildren g [m] [m] with
        | error e1 => simp [bfsF, hc] at hb'
        | ok children =>
          obtain ⟨succs, cs2, hl, hr2, hcs⟩ := bfsChildren_cons_ok g m [] [m] children hc
          have hcs2 : cs2 = [] := by simpa [bfsChildren] using hr2.symm
          have hmem2 : n ∈ succs := by
            rw [hl] at hmem
            exact hmem
          have hnc : n ∈ children := by
            rw [hcs, hcs2, List.append_nil, List.mem_filter]
            refine ⟨hmem2, decide_eq_true ?_⟩
            intro hc2
            rw [List.mem_singleton] at hc2
            exact hnm hc2
          have hne : children ≠ [] := by
            intro h0
            rw [h0] at hnc
            cases hnc
          have hb2 : bfsF (mentioned g).length g children ([m] ++ children) =
              some (.ok out) := by
            simpa [bfsF, hc, hne] using hb'
          cases hl2 : (mentioned g).length with
          | zero => rw [hl2] at hb2; cases hb2
          | succ k =>
            rw [hl2] at hb2
            cases hc2 : bfsChildren g children (m :: children) with
            | error e2 => simp [bfsF, hc2] at hb2
            | ok ch2 =>
              have hkeys := bfsChildren_ok_keys g children (m :: children) ch2 hc2 n hnc
              rw [hkeys] at hn
              cases hn

/-- Concrete witness for the amended C4 theorem on `{1: [2]}`. -/
theorem traversals_raise_on_dangling_witness :
    (depth_first_traversal gDangling 1).1 = .error .keyError ∧
    (breadth_first_traversal gDangling 1).1 = .error .keyError :=
  traversals_raise_on_dangling gDangling 1 2 (by decide) (by decide) (by decide)

end PG
